import Mathlib

set_option maxHeartbeats 1000000

/-!
Shallow embedding of the qotd-rs quote server core (src/quotes.rs, src/server.rs).

File contents, lines, paths and quotes are modelled as lists of bytes
(`List Nat`, each element a byte value); `str2bytes` turns an ASCII string
literal into its byte list.  Rust's `BufRead::read_line` is modelled by
`splitLines` (lines keep their trailing newline byte; a final line without a
newline is returned as-is).  The open `tokio::fs::File` handle of a
`QuoteFile` is modelled by the file's byte contents, and `seek` + `read_exact`
by `extractSpan`.
-/

/-- Bytes of an ASCII string literal. -/
def str2bytes (s : String) : List Nat :=
  s.data.map Char.toNat

/-- `startsL s t`: does the byte list `s` start with the byte list `t`?
Models Rust `str::starts_with` on ASCII data. -/
def startsL : List Nat → List Nat → Bool
  | _, [] => true
  | [], _ :: _ => false
  | a :: s, b :: t => a == b && startsL s t

/-- `hasTok s t`: does `s` contain `t` as a contiguous run?
Models Rust `str::contains` on ASCII data. -/
def hasTok : List Nat → List Nat → Bool
  | [], t => t.isEmpty
  | a :: s, t => startsL (a :: s) t || hasTok s t

/-- `endsL s t`: does `s` end with `t`?  Models Rust `str::ends_with`. -/
def endsL (s t : List Nat) : Bool :=
  startsL s.reverse t.reverse

/-- The file-name component of a path: the bytes after the last `/` (byte 47). -/
def fileNameOf (p : List Nat) : List Nat :=
  (p.reverse.takeWhile (fun c => !(c == 47))).reverse

/-- `const SEPARATOR: &str = "%";` (src/quotes.rs:21) -/
def SEPARATOR : List Nat := str2bytes "%"

/-- `const ROT31_TOKEN: &str = "$SerrOFQ$";` (src/quotes.rs:22) -/
def ROT31_TOKEN : List Nat := str2bytes "$SerrOFQ$"

/-- `const PLAIN_TOKEN: &str = "$FreeBSD$";` (src/quotes.rs:23) -/
def PLAIN_TOKEN : List Nat := str2bytes "$FreeBSD$"

/-- `const OFFENSIVE_SUFFIX: &str = "-o";` (src/quotes.rs:24) -/
def OFFENSIVE_SUFFIX : List Nat := str2bytes "-o"

/-- `enum QuoteCategory { Decorous, Offensive }` (src/quotes.rs:14-19) -/
inductive QuoteCategory where
  | Decorous
  | Offensive
deriving DecidableEq, Inhabited

/-- `enum FileEncoding { Plain, Rot13 }` (src/quotes.rs:26-31) -/
inductive FileEncoding where
  | Plain
  | Rot13
deriving DecidableEq, Inhabited

/-- `struct QuoteIndex { offset: u64, length: usize }` (src/quotes.rs:33-37). -/
structure QuoteIndex where
  offset : Nat
  length : Nat
deriving DecidableEq, Inhabited

/-- `struct QuoteFile` (src/quotes.rs:39-45); the `file_handle` is modelled by
the backing file's byte contents. -/
structure QuoteFile where
  content : List Nat
  quotes : List QuoteIndex
  encoding : FileEncoding
  category : QuoteCategory
deriving DecidableEq, Inhabited

/-- `struct Quotes { files, file_weights }` (src/quotes.rs:47-51); the
`WeightedAliasIndex<usize>` is modelled by its weight vector. -/
structure Quotes where
  files : List QuoteFile
  file_weights : List Nat
deriving DecidableEq, Inhabited

/-- Splits a byte stream into the successive results of
`BufRead::read_line` (src/quotes.rs:128): each line runs up to and including a
newline byte (10); a trailing run with no newline is one final line. -/
def splitLines : List Nat → List Nat → List (List Nat)
  | [], acc => if acc = [] then [] else [acc.reverse]
  | c :: rest, acc =>
    if c = 10 then (acc.reverse ++ [10]) :: splitLines rest []
    else splitLines rest (c :: acc)

/-- The lines of a file's contents, in `read_line` order. -/
def fileLines (content : List Nat) : List (List Nat) :=
  splitLines content []

/-- One step of the encoding-detection logic at the top of the indexing loop
(src/quotes.rs:129-137): if the encoding has not been found yet, a line
containing `ROT31_TOKEN` selects `Rot13`, else one containing `PLAIN_TOKEN`
selects `Plain`; afterwards the state is left unchanged. -/
def stepEnc (line : List Nat) (enc : FileEncoding) (found : Bool) :
    FileEncoding × Bool :=
  if !found then
    if hasTok line ROT31_TOKEN = true then (FileEncoding.Rot13, true)
    else if hasTok line PLAIN_TOKEN = true then (FileEncoding.Plain, true)
    else (enc, found)
  else (enc, found)

/-- The indexing loop of `Quotes::process_file` (src/quotes.rs:128-152) over
the file's lines, carrying the five mutable locals `offset`, `last_offset`,
`quotes`, `encoding`, `encoding_found`; returns the final `(quotes, encoding)`.
A line starting with `SEPARATOR` closes the span that began at `last_offset`;
the span is recorded only when its length (`offset - last_offset`) is
positive, and `last_offset` moves past the separator line. -/
def processLines :
    List (List Nat) → Nat → Nat → List QuoteIndex → FileEncoding → Bool →
    List QuoteIndex × FileEncoding
  | [], _, _, quotes, enc, _ => (quotes, enc)
  | line :: rest, offset, lastOffset, quotes, enc, found =>
    let ef := stepEnc line enc found
    let lineLen := line.length
    if startsL line SEPARATOR = true then
      let len := offset - lastOffset
      let quotes := if 0 < len then quotes ++ [⟨lastOffset, len⟩] else quotes
      processLines rest (offset + lineLen) (offset + lineLen) quotes ef.1 ef.2
    else
      processLines rest (offset + lineLen) lastOffset quotes ef.1 ef.2

/-- The category test of `Quotes::process_file` (src/quotes.rs:104-112):
`path.to_str().unwrap_or(OFFENSIVE_SUFFIX).ends_with(OFFENSIVE_SUFFIX)`.
A path that is not valid UTF-8 (`to_str()` returns `None`) is modelled as
`Option.none`. -/
def pathCategory (path : Option (List Nat)) : QuoteCategory :=
  if endsL (path.getD OFFENSIVE_SUFFIX) OFFENSIVE_SUFFIX = true then
    QuoteCategory.Offensive
  else QuoteCategory.Decorous

namespace Quotes

/-- `Quotes::process_file` (src/quotes.rs:101-163) on a path (`none` for a
non-UTF-8 path) and the opened file's byte contents. -/
def process_file (path : Option (List Nat)) (content : List Nat) : QuoteFile :=
  let category := pathCategory path
  let res := processLines (fileLines content) 0 0 [] FileEncoding.Plain false
  { content := content, quotes := res.1, encoding := res.2, category := category }

end Quotes

/-- The recorded spans of a processed file. -/
def fileSpans (path : Option (List Nat)) (content : List Nat) : List QuoteIndex :=
  (Quotes.process_file path content).quotes

/-- `seek(Start(offset))` then `read_exact` of `length` bytes
(src/quotes.rs:178-182). -/
def extractSpan (content : List Nat) (q : QuoteIndex) : List Nat :=
  (content.drop q.offset).take q.length

/-- `Quotes::rot13` on one byte (the match arms of src/quotes.rs:192-196). -/
def rot13Byte (c : Nat) : Nat :=
  if 65 ≤ c ∧ c ≤ 77 then c + 13
  else if 97 ≤ c ∧ c ≤ 109 then c + 13
  else if 78 ≤ c ∧ c ≤ 90 then c - 13
  else if 110 ≤ c ∧ c ≤ 122 then c - 13
  else c

/-- `Quotes::rot13` (src/quotes.rs:191-197). -/
def rot13 (text : List Nat) : List Nat :=
  text.map rot13Byte

/-- One entry of the directory tree handed to `Quotes::from_dir`: a file's
path (`none` when not valid UTF-8) and its byte contents.  The recursive
depth-first traversal of src/quotes.rs:62-86 is modelled by the flattened
list of regular files it visits, in visit order. -/
structure RawEntry where
  path : Option (List Nat)
  content : List Nat
deriving DecidableEq, Inhabited

/-- `WeightedAliasIndex::new(weights)` of the `rand_distr` crate, modelled by
its documented contract: the construction fails (returns `Err`) when the
weight vector is empty or its total weight is zero, and otherwise succeeds
with the given weights. -/
def weightedAliasIndexNew (ws : List Nat) : Option (List Nat) :=
  if ws = [] then none
  else if ws.sum = 0 then none
  else some ws

/-- Outcome of `Quotes::from_dir` on a directory whose files all open and
read successfully: either the built `Quotes` value, or `panic` when the
`.unwrap()` at src/quotes.rs:91 panics because `WeightedAliasIndex::new`
returned an error. -/
inductive FromDirResult where
  | panic
  | ok (q : Quotes)
deriving DecidableEq, Inhabited

/-- The per-file filter of `Quotes::from_dir` (src/quotes.rs:70-85): process
a regular file and keep it when its category is allowed and its span list is
non-empty (`allowed_categories.contains(&file.category) && !file.quotes.is_empty()`). -/
def fileFilter (allowed : List QuoteCategory) (e : RawEntry) : Option QuoteFile :=
  let f := Quotes.process_file e.path e.content
  if f.category ∈ allowed ∧ f.quotes ≠ [] then some f else none

/-- The files retained by `Quotes::from_dir`'s traversal, in visit order. -/
def eligibleFiles (entries : List RawEntry) (allowed : List QuoteCategory) :
    List QuoteFile :=
  entries.filterMap (fileFilter allowed)

namespace Quotes

/-- `Quotes::from_dir` (src/quotes.rs:55-99) over the flattened list of
regular files in the directory tree: filter the files, then build the
weighted distribution from the span counts and `.unwrap()` it
(src/quotes.rs:89-91). -/
def from_dir (entries : List RawEntry) (allowed : List QuoteCategory) :
    FromDirResult :=
  let files := eligibleFiles entries allowed
  match weightedAliasIndexNew (files.map fun f => f.quotes.length) with
  | none => FromDirResult.panic
  | some ws => FromDirResult.ok { files := files, file_weights := ws }

/-- `Quotes::read_quote` (src/quotes.rs:172-189) at a file index and a span
index (the span index is the value drawn by `gen_range(0..file.quotes.len())`
at src/quotes.rs:175).  `none` models the panic branches: `self.files[i]`
out of bounds, or an empty/out-of-range span index. -/
def read_quote (files : List QuoteFile) (i j : Nat) : Option (List Nat) :=
  match files.get? i with
  | none => none
  | some file =>
    match file.quotes.get? j with
    | none => none
    | some qi =>
      let quote := extractSpan file.content qi
      some (if file.encoding = FileEncoding.Rot13 then rot13 quote else quote)

end Quotes

/-- Total number of indexed quotes across the corpus's files. -/
def totalQuotes (files : List QuoteFile) : Nat :=
  (files.map fun f => f.quotes.length).sum

/-- Span count (= sampling weight) of file `i` of the corpus. -/
def quoteWeight (files : List QuoteFile) (i : Nat) : Nat :=
  ((files.getD i default).quotes.length)

/-- Probability that one call of `Quotes::random_quote` (src/quotes.rs:165-170)
returns a fixed span `j` of file `i`, per the documented distributions of the
two stages: `WeightedAliasIndex::sample` returns `i` with probability
`weight i / Σ weights` where the weights are the span counts
(src/quotes.rs:89-91), and `gen_range(0..len)` (src/quotes.rs:175) is uniform,
returning `j` with probability `1 / len`. -/
def quoteSelectionProb (files : List QuoteFile) (i : Nat) : ℚ :=
  ((quoteWeight files i : ℚ) / (totalQuotes files : ℚ)) *
    (1 / (quoteWeight files i : ℚ))

/-- The retry loop of the UDP handler task (src/server.rs:168-178), modelled
over the stream `qs` of quotes successively obtained from the quote broker:
take the next quote; if its byte length is below 512 send it (the returned
value) and stop, else discard it and retry.  `fuel` bounds the number of
iterations observed; `none` means the loop was still running (no datagram
sent) after `fuel` iterations. -/
def udpHandlerLoop : Nat → (Nat → List Nat) → Option (List Nat)
  | 0, _ => none
  | fuel + 1, qs =>
    if (qs 0).length < 512 then some (qs 0)
    else udpHandlerLoop fuel (fun i => qs (i + 1))

/-- The span-extraction component of `processLines` alone (the
`line_buf.starts_with(SEPARATOR)` branch of src/quotes.rs:140-150). -/
def spanScan : List (List Nat) → Nat → Nat → List QuoteIndex → List QuoteIndex
  | [], _, _, quotes => quotes
  | line :: rest, offset, lastOffset, quotes =>
    if startsL line SEPARATOR = true then
      spanScan rest (offset + line.length) (offset + line.length)
        (if 0 < offset - lastOffset then
          quotes ++ [⟨lastOffset, offset - lastOffset⟩]
        else quotes)
    else
      spanScan rest (offset + line.length) lastOffset quotes

/-- The encoding-detection component of `processLines` alone
(src/quotes.rs:129-137). -/
def encScan : List (List Nat) → FileEncoding → Bool → FileEncoding
  | [], enc, _ => enc
  | line :: rest, enc, found =>
    let ef := stepEnc line enc found
    encScan rest ef.1 ef.2

/-- Byte offset of line `j` inside the file: the total length of the lines
before it. -/
def lineOff (lines : List (List Nat)) (j : Nat) : Nat :=
  ((lines.take j).map List.length).sum

/-- Ordering relation between spans: `a` ends at or before `b` begins.
`List.Pairwise spanLe` states that the spans are in file order and pairwise
non-overlapping. -/
def spanLe (a b : QuoteIndex) : Prop :=
  a.offset + a.length ≤ b.offset

/-- The file contents `"Quote zero.\n%\nQuote one.\n"` of claim C1. -/
def c1content : List Nat := str2bytes "Quote zero.\n%\nQuote one.\n"

/-- A directory with a single file, which fails the `Decorous` category
filter (its name ends in `-o`). -/
def c2entries : List RawEntry :=
  [⟨some (str2bytes "quotes/funny-o"), str2bytes "%\nHa!\n%\n"⟩]

/-- A broker stream in which every quote is 512 bytes long. -/
def qsBig : Nat → List Nat := fun _ => List.replicate 512 65

/-- The flattened directory `{a ↦ "A\n%\n", b ↦ "B\n%\nC\n%\n"}`. -/
def entriesW : List RawEntry :=
  [⟨some (str2bytes "a"), str2bytes "A\n%\n"⟩,
   ⟨some (str2bytes "b"), str2bytes "B\n%\nC\n%\n"⟩]

/-- The corpus `Quotes::from_dir` builds over `entriesW` with the `Decorous`
filter: one file with one span, one with two, weights `[1, 2]`. -/
def corpusW : Quotes :=
  { files :=
      [⟨str2bytes "A\n%\n", [⟨0, 2⟩], FileEncoding.Plain, QuoteCategory.Decorous⟩,
       ⟨str2bytes "B\n%\nC\n%\n", [⟨0, 2⟩, ⟨4, 2⟩], FileEncoding.Plain,
         QuoteCategory.Decorous⟩],
    file_weights := [1, 2] }

/-! ### Supporting lemmas -/

theorem fileFilter_ne_nil (allowed : List QuoteCategory) (e : RawEntry)
    (f : QuoteFile) (h : fileFilter allowed e = some f) : f.quotes ≠ [] := by
  unfold fileFilter at h
  by_cases hc : (Quotes.process_file e.path e.content).category ∈ allowed ∧
      (Quotes.process_file e.path e.content).quotes ≠ []
  · rw [if_pos hc] at h
    rw [← Option.some.inj h]
    exact hc.2
  · rw [if_neg hc] at h
    exact absurd h (by simp)

theorem eligibleFiles_ne_nil (entries : List RawEntry)
    (allowed : List QuoteCategory) :
    ∀ f ∈ eligibleFiles entries allowed, f.quotes ≠ [] := by
  intro f hf
  rw [eligibleFiles, List.mem_filterMap] at hf
  obtain ⟨e, -, he⟩ := hf
  exact fileFilter_ne_nil allowed e f he

theorem weightedAliasIndexNew_some (ws0 ws : List Nat)
    (h : weightedAliasIndexNew ws0 = some ws) : ws = ws0 := by
  unfold weightedAliasIndexNew at h
  split_ifs at h
  exact (Option.some.inj h).symm

/-- Unpacking a successful `Quotes::from_dir`: the corpus's files are the
eligible files, the stored weights are their span counts, and every retained
file has at least one span. -/
theorem from_dir_ok (entries : List RawEntry) (allowed : List QuoteCategory)
    (q : Quotes) (h : Quotes.from_dir entries allowed = FromDirResult.ok q) :
    q.files = eligibleFiles entries allowed ∧
    q.file_weights = q.files.map (fun f => f.quotes.length) ∧
    ∀ f ∈ q.files, f.quotes ≠ [] := by
  unfold Quotes.from_dir at h
  simp only [] at h
  cases hw : weightedAliasIndexNew
      ((eligibleFiles entries allowed).map fun f => f.quotes.length) with
  | none =>
    rw [hw] at h
    exact absurd h (by simp)
  | some ws =>
    rw [hw] at h
    have hq : q = { files := eligibleFiles entries allowed, file_weights := ws } :=
      (FromDirResult.ok.inj h).symm
    subst hq
    refine ⟨rfl, ?_, eligibleFiles_ne_nil entries allowed⟩
    exact weightedAliasIndexNew_some _ _ hw

theorem processLines_fst (lines : List (List Nat)) :
    ∀ (offset lastOffset : Nat) (quotes : List QuoteIndex)
      (enc : FileEncoding) (found : Bool),
      (processLines lines offset lastOffset quotes enc found).1 =
        spanScan lines offset lastOffset quotes := by
  induction lines with
  | nil => intro offset lastOffset quotes enc found; rfl
  | cons line rest ih =>
    intro offset lastOffset quotes enc found
    simp only [processLines, spanScan]
    by_cases hs : startsL line SEPARATOR = true
    · rw [if_pos hs, if_pos hs]; exact ih _ _ _ _ _
    · rw [if_neg hs, if_neg hs]; exact ih _ _ _ _ _

theorem processLines_snd (lines : List (List Nat)) :
    ∀ (offset lastOffset : Nat) (quotes : List QuoteIndex)
      (enc : FileEncoding) (found : Bool),
      (processLines lines offset lastOffset quotes enc found).2 =
        encScan lines enc found := by
  induction lines with
  | nil => intro offset lastOffset quotes enc found; rfl
  | cons line rest ih =>
    intro offset lastOffset quotes enc found
    simp only [processLines, encScan]
    by_cases hs : startsL line SEPARATOR = true
    · rw [if_pos hs]; exact ih _ _ _ _ _
    · rw [if_neg hs]; exact ih _ _ _ _ _

theorem stepEnc_found (line : List Nat) (enc : FileEncoding) :
    stepEnc line enc true = (enc, true) := by
  simp [stepEnc]

theorem stepEnc_rot (line : List Nat) (enc : FileEncoding)
    (hr : hasTok line ROT31_TOKEN = true) :
    stepEnc line enc false = (FileEncoding.Rot13, true) := by
  simp [stepEnc, hr]

theorem stepEnc_plain (line : List Nat) (enc : FileEncoding)
    (hr : hasTok line ROT31_TOKEN = false)
    (hp : hasTok line PLAIN_TOKEN = true) :
    stepEnc line enc false = (FileEncoding.Plain, true) := by
  simp [stepEnc, hr, hp]

theorem stepEnc_none (line : List Nat) (enc : FileEncoding)
    (hr : hasTok line ROT31_TOKEN = false)
    (hp : hasTok line PLAIN_TOKEN = false) :
    stepEnc line enc false = (enc, false) := by
  simp [stepEnc, hr, hp]

theorem encScan_found (lines : List (List Nat)) :
    ∀ enc : FileEncoding, encScan lines enc true = enc := by
  induction lines with
  | nil => intro enc; rfl
  | cons line rest ih =>
    intro enc
    show encScan rest (stepEnc line enc true).1 (stepEnc line enc true).2 = enc
    rw [stepEnc_found]
    exact ih enc

/-- Characterization of the encoding scan started in its initial state: it
returns `Rot13` exactly when some line contains `ROT31_TOKEN` and every
earlier line contains neither token. -/
theorem encScan_rot13_iff (lines : List (List Nat)) :
    encScan lines FileEncoding.Plain false = FileEncoding.Rot13 ↔
      ∃ i line, lines.get? i = some line ∧ hasTok line ROT31_TOKEN = true ∧
        ∀ j line', j < i → lines.get? j = some line' →
          hasTok line' ROT31_TOKEN = false ∧ hasTok line' PLAIN_TOKEN = false := by
  induction lines with
  | nil =>
    constructor
    · intro h; exact absurd h (by decide)
    · rintro ⟨i, line, h, -⟩
      rw [List.get?_nil] at h
      exact absurd h (by simp)
  | cons line rest ih =>
    have hstep : encScan (line :: rest) FileEncoding.Plain false =
        encScan rest (stepEnc line FileEncoding.Plain false).1
          (stepEnc line FileEncoding.Plain false).2 := rfl
    cases hr : hasTok line ROT31_TOKEN with
    | true =>
      rw [hstep]
      simp only [stepEnc_rot line FileEncoding.Plain hr, encScan_found]
      constructor
      · intro _
        exact ⟨0, line, rfl, hr, fun j line' hj _ => absurd hj (Nat.not_lt_zero j)⟩
      · intro _; trivial
    | false =>
      cases hp : hasTok line PLAIN_TOKEN with
      | true =>
        rw [hstep]
        simp only [stepEnc_plain line FileEncoding.Plain hr hp, encScan_found]
        constructor
        · intro h; exact absurd h (by decide)
        · rintro ⟨i, li, hget, htok, hbefore⟩
          match i with
          | 0 =>
            rw [List.get?_cons_zero, Option.some.injEq] at hget
            subst hget
            rw [hr] at htok
            exact absurd htok (by decide)
          | i' + 1 =>
            have h0 := (hbefore 0 line (Nat.succ_pos i') List.get?_cons_zero).2
            rw [hp] at h0
            exact absurd h0 (by decide)
      | false =>
        rw [hstep]
        simp only [stepEnc_none line FileEncoding.Plain hr hp]
        rw [ih]
        constructor
        · rintro ⟨i, li, hget, htok, hbefore⟩
          refine ⟨i + 1, li, by rw [List.get?_cons_succ]; exact hget, htok, ?_⟩
          intro j line' hj hget'
          match j with
          | 0 =>
            rw [List.get?_cons_zero, Option.some.injEq] at hget'
            subst hget'
            exact ⟨hr, hp⟩
          | j' + 1 =>
            rw [List.get?_cons_succ] at hget'
            exact hbefore j' line' (by omega) hget'
        · rintro ⟨i, li, hget, htok, hbefore⟩
          match i with
          | 0 =>
            rw [List.get?_cons_zero, Option.some.injEq] at hget
            subst hget
            rw [hr] at htok
            exact absurd htok (by decide)
          | i' + 1 =>
            rw [List.get?_cons_succ] at hget
            refine ⟨i', li, hget, htok, ?_⟩
            intro j line' hj hget'
            refine hbefore (j + 1) line' (by omega) ?_
            rw [List.get?_cons_succ]
            exact hget'

theorem rot13Byte_rot13Byte (b : Nat) : rot13Byte (rot13Byte b) = b := by
  unfold rot13Byte
  split_ifs <;> omega

theorem startsL_nil (s : List Nat) : startsL s [] = true := by
  cases s <;> rfl

theorem lineOff_zero (lines : List (List Nat)) : lineOff lines 0 = 0 := rfl

theorem lineOff_succ (line : List Nat) (rest : List (List Nat)) (j : Nat) :
    lineOff (line :: rest) (j + 1) = line.length + lineOff rest j := by
  simp [lineOff, List.take_succ_cons]

/-- Invariant of the span scan: starting from state `(offset, lastOffset,
quotes)` with `lastOffset ≤ offset`, every already-recorded span positive and
ending at or before `lastOffset`, and the recorded spans pairwise ordered,
the final span list contains only positive spans, is pairwise ordered, every
newly recorded span starts at or after `lastOffset`, and every span is
disjoint from every separator line of the remaining input (whose absolute
position is `offset + lineOff lines j`). -/
theorem spanScan_inv (lines : List (List Nat)) :
    ∀ (offset lastOffset : Nat) (quotes : List QuoteIndex),
      lastOffset ≤ offset →
      (∀ q ∈ quotes, 0 < q.length ∧ q.offset + q.length ≤ lastOffset) →
      List.Pairwise spanLe quotes →
      (∀ q ∈ spanScan lines offset lastOffset quotes,
        0 < q.length ∧ (q ∈ quotes ∨ lastOffset ≤ q.offset)) ∧
      List.Pairwise spanLe (spanScan lines offset lastOffset quotes) ∧
      (∀ q ∈ spanScan lines offset lastOffset quotes, ∀ j line,
        lines.get? j = some line → startsL line SEPARATOR = true →
        offset + lineOff lines j + line.length ≤ q.offset ∨
          q.offset + q.length ≤ offset + lineOff lines j) := by
  induction lines with
  | nil =>
    intro offset lastOffset quotes h1 h2 h3
    refine ⟨fun q hq => ⟨(h2 q hq).1, Or.inl hq⟩, h3, ?_⟩
    intro q hq j line hget
    rw [List.get?_nil] at hget
    exact absurd hget (by simp)
  | cons line rest ih =>
    intro offset lastOffset quotes h1 h2 h3
    by_cases hs : startsL line SEPARATOR = true
    · -- separator line: close the current span, then continue
      have hunf : spanScan (line :: rest) offset lastOffset quotes =
          spanScan rest (offset + line.length) (offset + line.length)
            (if 0 < offset - lastOffset then
              quotes ++ [⟨lastOffset, offset - lastOffset⟩]
            else quotes) := by
        simp only [spanScan]
        rw [if_pos hs]
      rw [hunf]
      set quotes' : List QuoteIndex :=
        (if 0 < offset - lastOffset then
          quotes ++ [⟨lastOffset, offset - lastOffset⟩]
        else quotes) with hq'
      have hmem' : ∀ q ∈ quotes', q ∈ quotes ∨
          (q = ⟨lastOffset, offset - lastOffset⟩ ∧ 0 < offset - lastOffset) := by
        intro q hq
        rw [hq'] at hq
        by_cases hl : 0 < offset - lastOffset
        · rw [if_pos hl] at hq
          rcases List.mem_append.1 hq with h | h
          · exact Or.inl h
          · exact Or.inr ⟨List.mem_singleton.1 h, hl⟩
        · rw [if_neg hl] at hq
          exact Or.inl hq
      have h2' : ∀ q ∈ quotes', 0 < q.length ∧
          q.offset + q.length ≤ offset + line.length := by
        intro q hq
        rcases hmem' q hq with h | ⟨he, hl⟩
        · have := h2 q h
          omega
        · subst he
          simp only
          omega
      have h3' : List.Pairwise spanLe quotes' := by
        rw [hq']
        by_cases hl : 0 < offset - lastOffset
        · rw [if_pos hl]
          rw [List.pairwise_append]
          refine ⟨h3, List.pairwise_singleton _ _, ?_⟩
          intro a ha b hb
          rw [List.mem_singleton] at hb
          subst hb
          exact le_trans (h2 a ha).2 (le_refl _)
        · rw [if_neg hl]; exact h3
      obtain ⟨ha, hb, hc⟩ :=
        ih (offset + line.length) (offset + line.length) quotes'
          (le_refl _) h2' h3'
      -- spans still in `quotes'` end by `offset`; new ones start after the line
      have hend : ∀ q ∈ spanScan rest (offset + line.length)
          (offset + line.length) quotes',
          q.offset + q.length ≤ offset ∨ offset + line.length ≤ q.offset := by
        intro q hq
        rcases (ha q hq).2 with h | h
        · rcases hmem' q h with h' | ⟨he, -⟩
          · exact Or.inl (le_trans (h2 q h').2 h1)
          · subst he
            simp only
            omega
        · exact Or.inr h
      refine ⟨?_, hb, ?_⟩
      · intro q hq
        refine ⟨(ha q hq).1, ?_⟩
        rcases (ha q hq).2 with h | h
        · rcases hmem' q h with h' | ⟨he, -⟩
          · exact Or.inl h'
          · subst he
            exact Or.inr (le_refl _)
        · exact Or.inr (by omega)
      · intro q hq j line' hget hsep
        match j with
        | 0 =>
          rw [List.get?_cons_zero, Option.some.injEq] at hget
          subst hget
          rw [lineOff_zero]
          rcases hend q hq with h | h
          · right; omega
          · left; omega
        | j' + 1 =>
          rw [List.get?_cons_succ] at hget
          have := hc q hq j' line' hget hsep
          rw [lineOff_succ]
          omega
    · -- ordinary line: only the offset advances
      have hunf : spanScan (line :: rest) offset lastOffset quotes =
          spanScan rest (offset + line.length) lastOffset quotes := by
        simp only [spanScan]
        rw [if_neg hs]
      rw [hunf]
      obtain ⟨ha, hb, hc⟩ :=
        ih (offset + line.length) lastOffset quotes (by omega) h2 h3
      refine ⟨ha, hb, ?_⟩
      intro q hq j line' hget hsep
      match j with
      | 0 =>
        rw [List.get?_cons_zero, Option.some.injEq] at hget
        subst hget
        exact absurd hsep hs
      | j' + 1 =>
        rw [List.get?_cons_succ] at hget
        have := hc q hq j' line' hget hsep
        rw [lineOff_succ]
        omega

/-- Truncating a byte list at the first `/` (byte 47) does not change whether
it starts with a `/`-free token. -/
theorem startsL_takeWhile :
    ∀ t r : List Nat, (∀ c ∈ t, c ≠ 47) →
      startsL (r.takeWhile (fun c => !(c == 47))) t = startsL r t := by
  intro t
  induction t with
  | nil =>
    intro r _
    rw [startsL_nil, startsL_nil]
  | cons b t' ih =>
    intro r hsep
    have hb : b ≠ 47 := hsep b (List.mem_cons_self b t')
    cases r with
    | nil => rfl
    | cons a r' =>
      by_cases ha : a = 47
      · subst ha
        rw [List.takeWhile_cons, if_neg (by decide)]
        show false = ((47 == b) && startsL r' t')
        have h47 : ((47 : Nat) == b) = false := beq_eq_false_iff_ne.2 (Ne.symm hb)
        rw [h47, Bool.false_and]
      · rw [List.takeWhile_cons, if_pos (by simp [ha])]
        show ((a == b) && startsL (r'.takeWhile fun c => !(c == 47)) t') =
          ((a == b) && startsL r' t')
        rw [ih r' fun c hc => hsep c (List.mem_cons_of_mem b hc)]

/-- Whether a path ends with `OFFENSIVE_SUFFIX` is decided by its file-name
component alone (the suffix contains no path separator). -/
theorem endsL_fileNameOf (p : List Nat) :
    endsL (fileNameOf p) OFFENSIVE_SUFFIX = endsL p OFFENSIVE_SUFFIX := by
  unfold endsL fileNameOf
  rw [List.reverse_reverse]
  exact startsL_takeWhile OFFENSIVE_SUFFIX.reverse p.reverse (by decide)

/-! ### C1 -/

/-- C1 (counterexample): on the file `"Quote zero.\n%\nQuote one.\n"`, the
bytes of the single recorded span are not `"Quote one.\n"` — the claim fails
on the code. -/
theorem c1_counterexample :
    ¬ ((fileSpans (some (str2bytes "quotes")) c1content).map (extractSpan c1content)
        = [str2bytes "Quote one.\n"]) := by
  decide

/-- C1 (amended): on the file `"Quote zero.\n%\nQuote one.\n"`, indexing by
`process_file` yields exactly one `QuoteIndex`, whose bytes are
`"Quote zero.\n"`: content appearing before the first delimiter line is
captured as a span (the start of file acts as an implicit boundary), while
the content after the final delimiter line, having no closing delimiter, is
the part that is never captured. -/
theorem c1_amended_spans :
    (fileSpans (some (str2bytes "quotes")) c1content).map (extractSpan c1content)
      = [str2bytes "Quote zero.\n"] := by
  decide

/-! ### C2 -/

/-- C2 (counterexample): on a directory whose only file fails the category
filter, `Quotes::from_dir` does not return an error to the caller: it reaches
the `.unwrap()` panic on the failed `WeightedAliasIndex::new` construction
(modelled by `FromDirResult.panic`). -/
theorem c2_counterexample :
    Quotes.from_dir c2entries [QuoteCategory.Decorous] = FromDirResult.panic := by
  decide

/-- C2 (amended): whenever no file survives the category and non-empty-span
filters, `Quotes::from_dir` hands `WeightedAliasIndex::new` an empty weight
vector, whose error is `.unwrap()`ed: construction panics instead of
returning an explicit error. -/
theorem c2_amended_panics (entries : List RawEntry) (allowed : List QuoteCategory)
    (h : eligibleFiles entries allowed = []) :
    Quotes.from_dir entries allowed = FromDirResult.panic := by
  unfold Quotes.from_dir
  simp [h, weightedAliasIndexNew]

/-- Witness for `c2_amended_panics` at the concrete directory `c2entries`. -/
theorem c2_witness :
    Quotes.from_dir c2entries [QuoteCategory.Decorous] = FromDirResult.panic :=
  c2_amended_panics c2entries [QuoteCategory.Decorous] (by decide)

/-! ### C4 -/

/-- C4: the UDP handler loop never sends a datagram of 512 or more bytes:
whatever it sends has byte length strictly below 512 and is the first quote
obtained from the broker with length below 512, every earlier obtained quote
(all of length at least 512) having been discarded; and when every available
quote has length at least 512, the loop sends nothing within any number
`fuel` of retries — the retry loop is unbounded. -/
theorem udp_handler_sends_below_512 (fuel : Nat) (qs : Nat → List Nat) :
    (∀ q, udpHandlerLoop fuel qs = some q →
      q.length < 512 ∧
        ∃ k, k < fuel ∧ q = qs k ∧ ∀ i, i < k → 512 ≤ (qs i).length) ∧
    ((∀ i, 512 ≤ (qs i).length) → udpHandlerLoop fuel qs = none) := by
  induction fuel generalizing qs with
  | zero =>
    refine ⟨fun q hq => by simp [udpHandlerLoop] at hq, fun _ => rfl⟩
  | succ n ih =>
    constructor
    · intro q hq
      by_cases h0 : (qs 0).length < 512
      · simp [udpHandlerLoop, h0] at hq
        subst hq
        exact ⟨h0, 0, Nat.succ_pos n, rfl, fun i hi => absurd hi (Nat.not_lt_zero i)⟩
      · simp [udpHandlerLoop, h0] at hq
        obtain ⟨hlen, k, hk, hqk, hall⟩ := (ih (fun i => qs (i + 1))).1 q hq
        refine ⟨hlen, k + 1, by omega, hqk, fun i hi => ?_⟩
        match i with
        | 0 => exact Nat.le_of_not_lt h0
        | i' + 1 => exact hall i' (by omega)
    · intro hall
      have h0 : ¬ (qs 0).length < 512 := Nat.not_lt.2 (hall 0)
      simp [udpHandlerLoop, h0]
      exact (ih (fun i => qs (i + 1))).2 fun i => hall (i + 1)

/-- Witness for `udp_handler_sends_below_512`: with only 512-byte quotes on
offer, three rounds of the retry loop send nothing. -/
theorem c4_witness : udpHandlerLoop 3 qsBig = none :=
  (udp_handler_sends_below_512 3 qsBig).2
    (by intro i; simp only [qsBig, List.length_replicate, le_refl])

/-! ### C6 -/

/-- C6: the rot13 transform is an involution — applied twice to a byte
sequence it reproduces the original bytes exactly; one application leaves
every non-alphabetic byte unchanged and rotates each ASCII alphabetic byte
by 13 positions within its case. -/
theorem rot13_involution (l : List Nat) (_h : ∀ b ∈ l, b < 256) :
    rot13 (rot13 l) = l ∧
    (∀ b ∈ l, ¬ ((65 ≤ b ∧ b ≤ 90) ∨ (97 ≤ b ∧ b ≤ 122)) → rot13Byte b = b) ∧
    (∀ b ∈ l, 65 ≤ b → b ≤ 90 → rot13Byte b = 65 + (b - 65 + 13) % 26) ∧
    (∀ b ∈ l, 97 ≤ b → b ≤ 122 → rot13Byte b = 97 + (b - 97 + 13) % 26) := by
  refine ⟨?_, ?_, ?_, ?_⟩
  · clear _h
    induction l with
    | nil => rfl
    | cons a t ih =>
      simp only [rot13, List.map_cons] at ih ⊢
      rw [rot13Byte_rot13Byte]
      exact congrArg (a :: ·) ih
  · intro b _ hb
    unfold rot13Byte
    split_ifs <;> omega
  · intro b _ h1 h2
    unfold rot13Byte
    split_ifs <;> omega
  · intro b _ h1 h2
    unfold rot13Byte
    split_ifs <;> omega

/-- Witness for `rot13_involution` on the bytes of `"Uryyb, Jbeyq! 123"`. -/
theorem c6_witness :
    rot13 (rot13 (str2bytes "Uryyb, Jbeyq! 123")) = str2bytes "Uryyb, Jbeyq! 123" :=
  (rot13_involution (str2bytes "Uryyb, Jbeyq! 123") (by decide)).1

/-! ### C5 -/

/-- C5: the detected `FileEncoding` is decided by whichever marker token
occurs first in file order: the result is `Rot13` exactly when some line
contains the rot13 marker and every earlier line contains neither marker
(so markers on lines after the deciding one are ignored); and when neither
marker appears on any line the encoding is `Plain`. -/
theorem encoding_first_marker_wins (path : Option (List Nat)) (content : List Nat) :
    ((Quotes.process_file path content).encoding = FileEncoding.Rot13 ↔
      ∃ i line, (fileLines content).get? i = some line ∧
        hasTok line ROT31_TOKEN = true ∧
        ∀ j line', j < i → (fileLines content).get? j = some line' →
          hasTok line' ROT31_TOKEN = false ∧ hasTok line' PLAIN_TOKEN = false) ∧
    ((∀ line ∈ fileLines content,
        hasTok line ROT31_TOKEN = false ∧ hasTok line PLAIN_TOKEN = false) →
      (Quotes.process_file path content).encoding = FileEncoding.Plain) := by
  have henc : (Quotes.process_file path content).encoding =
      encScan (fileLines content) FileEncoding.Plain false :=
    processLines_snd (fileLines content) 0 0 [] FileEncoding.Plain false
  constructor
  · rw [henc]
    exact encScan_rot13_iff (fileLines content)
  · intro hnone
    rw [henc]
    cases hcase : encScan (fileLines content) FileEncoding.Plain false with
    | Plain => rfl
    | Rot13 =>
      obtain ⟨i, li, hget, htok, -⟩ := (encScan_rot13_iff _).1 hcase
      have hmem : li ∈ fileLines content := List.get?_mem hget
      rw [(hnone li hmem).1] at htok
      exact absurd htok (by decide)

/-- Witness for `encoding_first_marker_wins`: a file whose first line holds
the rot13 marker is detected as `Rot13`. -/
theorem c5_witness :
    (Quotes.process_file (some (str2bytes "f")) (str2bytes "$SerrOFQ$\nA\n%\n")).encoding
      = FileEncoding.Rot13 :=
  (encoding_first_marker_wins (some (str2bytes "f")) (str2bytes "$SerrOFQ$\nA\n%\n")).1.mpr
    ⟨0, str2bytes "$SerrOFQ$\n", by decide, by decide,
      fun j line' hj _ => absurd hj (Nat.not_lt_zero j)⟩

/-! ### C7 -/

/-- C7: every span recorded by the indexer has strictly positive length, the
spans of one file are pairwise non-overlapping (each ends at or before the
next begins), and no span includes any byte of a delimiter line — a line
whose first character is `%` — of the file. -/
theorem spans_positive_disjoint (path : Option (List Nat)) (content : List Nat) :
    (∀ q ∈ fileSpans path content, 0 < q.length) ∧
    List.Pairwise spanLe (fileSpans path content) ∧
    (∀ q ∈ fileSpans path content, ∀ j line,
      (fileLines content).get? j = some line → startsL line SEPARATOR = true →
      lineOff (fileLines content) j + line.length ≤ q.offset ∨
        q.offset + q.length ≤ lineOff (fileLines content) j) := by
  have hspan : fileSpans path content = spanScan (fileLines content) 0 0 [] :=
    processLines_fst (fileLines content) 0 0 [] FileEncoding.Plain false
  have h := spanScan_inv (fileLines content) 0 0 [] (le_refl 0)
    (fun q hq => absurd hq (List.not_mem_nil q)) List.Pairwise.nil
  rw [hspan]
  refine ⟨fun q hq => (h.1 q hq).1, h.2.1, ?_⟩
  intro q hq j line hget hsep
  have := h.2.2 q hq j line hget hsep
  omega

/-- Witness for `spans_positive_disjoint`: on the file `"%\nAb\n%\n"` the
single recorded span `⟨2, 3⟩` is positive and disjoint from the first
delimiter line. -/
theorem c7_witness :
    0 < (⟨2, 3⟩ : QuoteIndex).length ∧
    (lineOff (fileLines (str2bytes "%\nAb\n%\n")) 0 + (str2bytes "%\n").length
        ≤ (⟨2, 3⟩ : QuoteIndex).offset ∨
      (⟨2, 3⟩ : QuoteIndex).offset + (⟨2, 3⟩ : QuoteIndex).length
        ≤ lineOff (fileLines (str2bytes "%\nAb\n%\n")) 0) := by
  have h := spans_positive_disjoint (some (str2bytes "f")) (str2bytes "%\nAb\n%\n")
  exact ⟨h.1 ⟨2, 3⟩ (by decide),
    h.2.2 ⟨2, 3⟩ (by decide) 0 (str2bytes "%\n") (by decide) (by decide)⟩

/-! ### C8 -/

/-- C8: a file's `QuoteCategory` is `Offensive` exactly when its file name —
the path component after the last separator — ends with the two-byte suffix
`-o`, and the category does not depend on the file's contents (hence not on
its detected encoding). -/
theorem category_from_name_suffix (p content content' : List Nat) :
    ((Quotes.process_file (some p) content).category = QuoteCategory.Offensive ↔
      endsL (fileNameOf p) OFFENSIVE_SUFFIX = true) ∧
    (Quotes.process_file (some p) content).category =
      (Quotes.process_file (some p) content').category := by
  have hcat : ∀ c : List Nat,
      (Quotes.process_file (some p) c).category = pathCategory (some p) :=
    fun c => rfl
  constructor
  · rw [hcat content]
    unfold pathCategory
    rw [Option.getD_some, endsL_fileNameOf]
    by_cases h : endsL p OFFENSIVE_SUFFIX = true
    · rw [if_pos h]
      exact ⟨fun _ => h, fun _ => rfl⟩
    · rw [if_neg h]
      exact ⟨fun hh => absurd hh (by decide), fun hh => absurd hh h⟩
  · rw [hcat content, hcat content']

/-- Witness for `category_from_name_suffix`: the path `"quotes/funny-o"`
yields category `Offensive` whatever the file contents. -/
theorem c8_witness :
    (Quotes.process_file (some (str2bytes "quotes/funny-o"))
      (str2bytes "A\n%\n")).category = QuoteCategory.Offensive :=
  (category_from_name_suffix (str2bytes "quotes/funny-o") (str2bytes "A\n%\n")
    (str2bytes "B\n%\n")).1.mpr (by decide)

/-! ### C3 -/

/-- C3: for a corpus built by `Quotes::from_dir`, the two-stage selection of
`random_quote` — file `i` with probability proportional to its span count,
then a uniformly chosen span index within file `i` — gives every individual
quote the same selection probability `1 / (w1 + ... + wn)`, where the `wk`
are the files' span counts (the stored sampler weights), regardless of how
the quotes are distributed across the files. -/
theorem per_quote_selection_uniform (entries : List RawEntry)
    (allowed : List QuoteCategory) (q : Quotes)
    (h : Quotes.from_dir entries allowed = FromDirResult.ok q)
    (i : Nat) (hi : i < q.files.length) :
    quoteSelectionProb q.files i = 1 / (totalQuotes q.files : ℚ) ∧
    totalQuotes q.files = q.file_weights.sum := by
  obtain ⟨-, hw, hpos⟩ := from_dir_ok entries allowed q h
  have hgetD : q.files.getD i default = q.files.get ⟨i, hi⟩ := by
    rw [List.getD_eq_get?, List.get?_eq_get hi]
    rfl
  have hposi : 0 < quoteWeight q.files i := by
    unfold quoteWeight
    rw [hgetD]
    exact List.length_pos.2 (hpos _ (List.get_mem q.files _ hi))
  constructor
  · have hne : (quoteWeight q.files i : ℚ) ≠ 0 :=
      Nat.cast_ne_zero.2 (Nat.pos_iff_ne_zero.1 hposi)
    unfold quoteSelectionProb
    rw [div_mul_div_comm, mul_one,
      mul_comm (totalQuotes q.files : ℚ) (quoteWeight q.files i : ℚ),
      ← div_div, div_self hne]
  · rw [hw]
    rfl

/-- Witness for `per_quote_selection_uniform` at the concrete corpus
`corpusW` and file index 0. -/
theorem c3_witness :
    quoteSelectionProb corpusW.files 0 = 1 / (totalQuotes corpusW.files : ℚ) :=
  (per_quote_selection_uniform entriesW [QuoteCategory.Decorous] corpusW
    (by decide) 0 (by decide)).1

/-! ### C10 -/

/-- C10: in any corpus built by `Quotes::from_dir`, the sampler's weight list
is as long as the file list (so a sampled file index is always in bounds),
every retained file has a non-empty span list (so `gen_range(0..len)` never
gets an empty range), and `read_quote` succeeds — never reaches a panicking
out-of-bounds access — for every sampled file index and span index. -/
theorem read_quote_panic_free (entries : List RawEntry)
    (allowed : List QuoteCategory) (q : Quotes)
    (h : Quotes.from_dir entries allowed = FromDirResult.ok q) :
    q.file_weights.length = q.files.length ∧
    (∀ f ∈ q.files, 0 < f.quotes.length) ∧
    (∀ i, i < q.file_weights.length →
      ∃ f, q.files.get? i = some f ∧ 0 < f.quotes.length ∧
        ∀ j, j < f.quotes.length →
          (Quotes.read_quote q.files i j).isSome = true) := by
  obtain ⟨-, hw, hpos⟩ := from_dir_ok entries allowed q h
  have hlen : q.file_weights.length = q.files.length := by
    rw [hw, List.length_map]
  refine ⟨hlen, fun f hf => List.length_pos.2 (hpos f hf), ?_⟩
  intro i hi
  rw [hlen] at hi
  refine ⟨q.files.get ⟨i, hi⟩, List.get?_eq_get hi,
    List.length_pos.2 (hpos _ (List.get_mem q.files _ hi)), ?_⟩
  intro j hj
  unfold Quotes.read_quote
  rw [List.get?_eq_get hi]
  simp only []
  rw [List.get?_eq_get hj]
  simp only [Option.isSome_some]

/-- Witness for `read_quote_panic_free` at the concrete corpus `corpusW`. -/
theorem c10_witness :
    corpusW.file_weights.length = corpusW.files.length :=
  (read_quote_panic_free entriesW [QuoteCategory.Decorous] corpusW (by decide)).1

/-! ### C9 -/

/-- C9: a file whose path is not valid UTF-8 (`to_str()` returns `None`) is
always categorized `Offensive`, whatever its contents: the conversion falls
back to `OFFENSIVE_SUFFIX` itself as the string tested for the suffix. -/
theorem non_utf8_path_is_offensive (content : List Nat) :
    (Quotes.process_file none content).category = QuoteCategory.Offensive := by
  rfl
